import Mathlib

/-!
Verification of the pdf-to-md document normalization and chunking pipeline.

Shallow embedding of the Python sources:
  * `src/core/markdown_service.py`   (MarkdownService)
  * `src/core/document_processors.py` (MarkdownProcessor)
  * `src/core/document_service.py`    (DocumentService)
  * `src/core/repository_service.py`  (RepositoryService, as explicit state)

Python strings are modelled as Lean `String` (a structure around `List Char`,
so all operations reduce structurally).  `io.StringIO(s)` line iteration is
modelled by `pythonLines`, which splits after each `'\n'` and keeps the
newline terminator on every line except possibly the last, exactly like
Python text-line iteration.  `io.StringIO(None)` iterates no lines, which is
modelled by `pythonLinesOpt none = []`.  Python `str.strip()` / `str.lstrip()`
are modelled over the ASCII whitespace set (all inputs in this development
are ASCII).  Python's insertion-ordered `dict` is modelled as an association
list updated in place.
-/

namespace PdfToMd

/-- ASCII whitespace, the characters Python `str.strip()` removes on ASCII
text: space, tab, newline, carriage return, vertical tab, form feed. -/
def pyIsSpace (c : Char) : Bool :=
  c == ' ' || c == '\t' || c == '\n' || c == '\r' ||
  c == Char.ofNat 11 || c == Char.ofNat 12

def pyStripList (cs : List Char) : List Char :=
  ((cs.dropWhile pyIsSpace).reverse.dropWhile pyIsSpace).reverse

/-- Python `str.strip()`. -/
def pyStrip (s : String) : String := ⟨pyStripList s.data⟩

/-- Python `str.lstrip()`. -/
def pyLStrip (s : String) : String := ⟨s.data.dropWhile pyIsSpace⟩

/-- Python `str.startswith(c)` for a one-character prefix (the only form the
sources use: `"#"`, `"|"`, `` "`" ``). -/
def startsWithChar (s : String) (c : Char) : Bool :=
  match s.data with
  | [] => false
  | a :: _ => a == c

/-- Split a character list into Python text lines: each line keeps its
terminating `'\n'`; a final line without a terminator is kept as is. -/
def splitLinesAux : List Char → List (List Char)
  | [] => []
  | c :: cs =>
    if c = '\n' then ['\n'] :: splitLinesAux cs
    else
      match splitLinesAux cs with
      | [] => [[c]]
      | l :: ls => (c :: l) :: ls

/-- The sequence of lines `for line in io.StringIO(s)` yields. -/
def pythonLines (s : String) : List String :=
  (splitLinesAux s.data).map (fun cs => ⟨cs⟩)

/-- `io.StringIO(None)` yields no lines. -/
def pythonLinesOpt : Option String → List String
  | none => []
  | some s => pythonLines s

/-- Python `"\n".join(xs)`. -/
def joinLines (xs : List String) : String := String.intercalate "\n" xs

/-! ## MarkdownService.get_markdown_headers_and_tables -/

structure ScanResult where
  headers : List String
  tables : List (List String)
  endsInTable : Bool
deriving DecidableEq

/-- The `for line in lines` loop of `get_markdown_headers_and_tables`
(markdown_service.py lines 75-97), including the post-loop flush of a
trailing table accumulation. -/
def scanLines : List String → List String → List (List String) → List String → Bool → ScanResult
  | [], headers, tables, acc, b =>
    { headers := headers
      tables := if acc.length > 0 then tables ++ [acc] else tables
      endsInTable := b }
  | line :: rest, headers, tables, acc, b =>
    let headers := if startsWithChar line '#' then headers ++ [pyStrip line] else headers
    if startsWithChar line '|' then
      scanLines rest headers tables (acc ++ [pyStrip line]) true
    else if acc.length > 0 then
      scanLines rest headers (tables ++ [acc]) [] false
    else
      scanLines rest headers tables acc b

/-- `MarkdownService.get_markdown_headers_and_tables` (markdown_service.py
lines 47-102).  The guard is Python `if s and not s.strip()`: it raises only
for a NONEMPTY string whose strip is empty. -/
def get_markdown_headers_and_tables (s : String) : Except String ScanResult :=
  if s ≠ "" ∧ pyStrip s = "" then .error "Input string cannot be empty"
  else .ok (scanLines (pythonLines s) [] [] [] false)

instance {ε α : Type} [DecidableEq ε] [DecidableEq α] : DecidableEq (Except ε α) := fun a b =>
  match a, b with
  | .ok x, .ok y =>
    if h : x = y then .isTrue (by rw [h]) else .isFalse (by intro hc; cases hc; exact h rfl)
  | .error x, .error y =>
    if h : x = y then .isTrue (by rw [h]) else .isFalse (by intro hc; cases hc; exact h rfl)
  | .ok _, .error _ => .isFalse (by intro hc; cases hc)
  | .error _, .ok _ => .isFalse (by intro hc; cases hc)

/-! ## MarkdownService.count_consecutive_chars -/

/-- `MarkdownService.count_consecutive_chars` (markdown_service.py lines
13-45).  Counts the consecutive occurrences of `c` from `startPos` and also
returns `i - 1`, where `i` is the Python loop variable after the loop: the
index at which the loop broke, or `len(s) - 1` if it ran to the end. -/
def count_consecutive_chars (s : String) (startPos : Int) (c : Char) :
    Except String (Nat × Int) :=
  if startPos < 0 ∨ (s.data.length : Int) ≤ startPos then
    .error "Start position out of bounds"
  else
    let tail := s.data.drop startPos.toNat
    let count := (tail.takeWhile (· == c)).length
    let i : Int :=
      if startPos.toNat + count < s.data.length then startPos + count
      else (s.data.length : Int) - 1
    .ok (count, i - 1)

/-! ## MarkdownService.get_header_level_cutoff

Python's insertion-ordered `dict` is an association list; `d[k] = v` updates
the entry in place when the key exists and appends otherwise. -/

def lookupAssoc (m : List (Nat × Nat)) (k : Nat) : Option Nat :=
  match m.find? (fun e => e.1 == k) with
  | some e => some e.2
  | none => none

def updateAssoc (m : List (Nat × Nat)) (k : Nat) (v : Nat) : List (Nat × Nat) :=
  if m.any (fun e => e.1 == k) then m.map (fun e => if e.1 == k then (k, v) else e)
  else m ++ [(k, v)]

/-- The body of the counting loop (markdown_service.py lines 110-115):
`level_count = header_counts.get(level); if level_count: ... else ...`.
Python truthiness: `None` and `0` both take the else branch. -/
def bumpCount (m : List (Nat × Nat)) (k : Nat) : List (Nat × Nat) :=
  match lookupAssoc m k with
  | some c => if c ≠ 0 then updateAssoc m k (c + 1) else updateAssoc m k 1
  | none => updateAssoc m k 1

/-- The header-counting loop of `get_header_level_cutoff` (lines 106-117). -/
def countsLoop : List String → List (Nat × Nat) → Except String (List (Nat × Nat))
  | [], m => .ok m
  | line :: rest, m =>
    if startsWithChar line '#' then
      match count_consecutive_chars line 0 '#' with
      | .error e => .error e
      | .ok (level, _) => countsLoop rest (bumpCount m level)
    else countsLoop rest m

/-- The selection loop of `get_header_level_cutoff` (lines 121-126): keep the
first item whose count strictly exceeds the best so far, starting from
`cutoff = 0, cutoff_count = 0`. -/
def pickCutoff (m : List (Nat × Nat)) : Nat :=
  (m.foldl (fun best e => if best.2 < e.2 then e else best) (0, 0)).1

/-- `MarkdownService.get_header_level_cutoff` (markdown_service.py lines
104-129).  Takes `Option String` because `DocumentService.convert_to_chunks`
passes `aggregated_text = None` through to it; `io.StringIO(None)` iterates
no lines. -/
def get_header_level_cutoff (aggregated_text : Option String) : Except String Nat := do
  let m ← countsLoop (pythonLinesOpt aggregated_text) []
  pure (pickCutoff m)

/-! ## MarkdownService.convert_markdown_to_chunks -/

def updateHeaderMap (m : List (Nat × String)) (k : Nat) (v : String) : List (Nat × String) :=
  if m.any (fun e => e.1 == k) then m.map (fun e => if e.1 == k then (k, v) else e)
  else m ++ [(k, v)]

structure ChunkState where
  headerMap : List (Nat × String)
  currentChunk : List String
  chunks : List (List String)
  chunkTitles : List String
deriving DecidableEq

/-- One iteration of the `for line in lines` loop of
`convert_markdown_to_chunks` (markdown_service.py lines 155-196).
Branches in source order: header-level count and `header_map` update
(lines 158-159), the `header_level > header_level_cutoff` early continue
(lines 162-165), the first-chunk branch (lines 168-171), the chunk-boundary
branch with its `header_map` purge (lines 174-190), and the regular-line
append (line 195). -/
def chunkStep (filename : String) (cutoff : Nat) (st : ChunkState) (line : String) :
    Except String ChunkState :=
  if startsWithChar line '#' then
    match count_consecutive_chars line 0 '#' with
    | .error e => .error e
    | .ok (level, _) =>
      let m := updateHeaderMap st.headerMap level (pyStrip line)
      if cutoff < level then
        .ok { st with headerMap := m, currentChunk := st.currentChunk ++ [pyStrip line] }
      else
        let cur :=
          if st.chunks.length = 0 ∧ st.chunkTitles.length = 0 then
            st.currentChunk ++ [pyStrip line]
          else st.currentChunk
        let titles :=
          if st.chunks.length = 0 ∧ st.chunkTitles.length = 0 then
            st.chunkTitles ++ [pyStrip line]
          else st.chunkTitles
        if m.length + 1 < cur.length then
          let m2 := m.filter (fun e => decide (e.1 ≤ level))
          .ok { headerMap := m2
                currentChunk := filename :: m2.map (fun e => e.2)
                chunks := st.chunks ++ [cur]
                chunkTitles := titles ++ [pyStrip line] }
        else
          .ok { st with headerMap := m, currentChunk := cur, chunkTitles := titles }
  else
    .ok { st with currentChunk := st.currentChunk ++ [pyStrip line] }

/-- Python word characters for ASCII text: `re` module `\w` is
`[a-zA-Z0-9_]` on ASCII input. -/
def isWordChar (c : Char) : Bool := c.isAlphanum || c == '_'

/-- `re.sub(r'\W+', ' ', title)` on ASCII text: every maximal run of
non-word characters becomes a single space.  `inRun` tracks whether the
previous character belonged to a non-word run already replaced. -/
def collapseNonWord (inRun : Bool) : List Char → List Char
  | [] => []
  | c :: rest =>
    if isWordChar c then c :: collapseNonWord false rest
    else if inRun then collapseNonWord true rest
    else ' ' :: collapseNonWord true rest

/-- `re.sub(r'\W+', r' ', title).strip()` (markdown_service.py line 210). -/
def cleanTitle (title : String) : String := pyStrip ⟨collapseNonWord false title.data⟩

def initialChunkState (filename : String) : ChunkState :=
  { headerMap := [], currentChunk := [filename], chunks := [], chunkTitles := [] }

/-- `MarkdownService.convert_markdown_to_chunks` (markdown_service.py lines
131-214).  Takes `Option String` because the pipeline passes
`aggregated_text = None` through unchecked; `io.StringIO(None)` iterates no
lines. -/
def convert_markdown_to_chunks (filename : String) (markdown_text : Option String)
    (header_level_cutoff : Nat) :
    Except String (List String × List String × List String) := do
  let st ← (pythonLinesOpt markdown_text).foldlM
    (chunkStep filename header_level_cutoff) (initialChunkState filename)
  let chunks :=
    if st.headerMap.length + 1 < st.currentChunk.length then st.chunks ++ [st.currentChunk]
    else st.chunks
  let chunkTexts := chunks.map joinLines
  let cleanChunkTitles := st.chunkTitles.map cleanTitle
  pure (chunkTexts, st.chunkTitles, cleanChunkTitles)

/-! ## MarkdownService.remove_lines_starting_with and replace helpers -/

/-- `MarkdownService.remove_lines_starting_with` (markdown_service.py lines
216-225): keep the lines whose `lstrip()` does not start with `c`, strip
each kept line, join with newlines. -/
def remove_lines_starting_with (text : String) (c : Char) : String :=
  joinLines (((pythonLines text).filter
    (fun line => !startsWithChar (pyLStrip line) c)).map pyStrip)

/-! ## MarkdownProcessor (document_processors.py) -/

/-- `MarkdownProcessor.refine_headers` (document_processors.py lines
177-187).  Scans the input text; in the source BOTH branches of
`if len(headers) > 0` assign `headers = new_headers` (the call to
`correct_header_levels` is commented out), so the scanned headers are
returned unchanged. -/
def refine_headers (input_text : String) (headers : List String) :
    Except String (String × List String × List (List String) × Bool) := do
  let r ← get_markdown_headers_and_tables input_text
  let headers := if headers.length > 0 then r.headers else r.headers
  pure (input_text, headers, r.tables, r.endsInTable)

/-- `MarkdownProcessor.correct_header_levels` (document_processors.py lines
309-408), with the completion collaborator's reply made an explicit
parameter `llmResponse` (the call
`self.llm_service.call_text_llm_provider(...)` at line 399 is external and
can return any text).  `headers` and `new_headers` only shape the prompt;
the returned list is the stripped lines of the fence-filtered reply,
accepted without any validation of its length. -/
def correct_header_levels (llmResponse : String) (headers new_headers : List String) :
    List String :=
  let _ := headers
  let _ := new_headers
  let cleaned := remove_lines_starting_with llmResponse '`'
  (pythonLines cleaned).map pyStrip

/-- `MarkdownProcessor.convert_text_to_chunks` (document_processors.py lines
410-420).  Python `if not header_level_cutoff` is truthiness: both `None`
and `0` trigger the automatic cutoff computation. -/
def convert_text_to_chunks (filename : String) (aggregated_text : Option String)
    (header_level_cutoff : Option Nat) :
    Except String (List String × List String × List String) := do
  let cutoff ←
    match header_level_cutoff with
    | none => get_header_level_cutoff aggregated_text
    | some k =>
      if k = 0 then get_header_level_cutoff aggregated_text
      else pure k
  convert_markdown_to_chunks filename aggregated_text cutoff

/-! ## DocumentService chunk stage (document_service.py)

The store and file-artifact collaborators are modelled as explicit state.
The repository operations come from repository_service.py:
`delete_text_chunks_for_processed_file_id` deletes all of a file's chunk
rows and reports success, `update_processed_file` applies the provided
fields, `bulk_create_text_chunks` inserts one row per `(text, title)` pair.
-/

inductive ProcessingStatus
  | queued_for_processing
  | pending
  | image_extraction_in_progress
  | images_extracted
  | ocr_in_progress
  | ocr_completed
  | text_aggregation_in_progress
  | text_aggregated
  | chunking_in_progress
  | chunking_completed
  | completed
  | failed
deriving DecidableEq

structure ProcessedFile where
  filename : String
  status : ProcessingStatus
  aggregated_text : Option String
deriving DecidableEq

structure TextChunkRec where
  chunk_text : String
  chunk_title : String
deriving DecidableEq

/-- The pipeline-visible state for the chunk stage: the Document row, its
chunk rows in the store, and the chunk artifact files on disk (clean title,
body). -/
structure PipelineState where
  file : ProcessedFile
  text_chunks : List TextChunkRec
  chunk_files : List (String × String)
deriving DecidableEq

def update_status (st : PipelineState) (x : ProcessingStatus) : PipelineState :=
  { st with file := { st.file with status := x } }

/-- `RepositoryService.delete_text_chunks_for_processed_file_id`
(repository_service.py lines 247-259): removes every chunk row of the file
and returns success. -/
def delete_text_chunks_for_processed_file_id (st : PipelineState) : PipelineState × Bool :=
  ({ st with text_chunks := [] }, true)

/-- Modelled from the spec: `FileService.delete_dir` is called at
document_service.py lines 69 and 220 but no such method exists in
file_service.py.  The spec's file-artifact collaborator "supports
directory-scoped deletion for re-runs", so it removes the Document's chunk
files and reports success. -/
def delete_dir (st : PipelineState) : PipelineState × Bool :=
  ({ st with chunk_files := [] }, true)

/-- `RepositoryService.bulk_create_text_chunks` (repository_service.py lines
233-242): inserts one chunk row per entry. -/
def bulk_create_text_chunks (st : PipelineState) (rows : List TextChunkRec) : PipelineState :=
  { st with text_chunks := st.text_chunks ++ rows }

/-- Modelled from the spec: `FileService.convert_chunks_to_files` is called
at document_service.py lines 236-240 with `(filename, file_id, filetype,
chunks, titles)`, a signature file_service.py does not offer.  The spec's
file-artifact collaborator "persists ... each chunk body to addressable
file locations", one artifact per chunk, named by its clean title. -/
def convert_chunks_to_files (st : PipelineState) (chunks : List String)
    (titles : List String) : PipelineState :=
  { st with chunk_files := st.chunk_files ++ titles.zip chunks }

/-- `DocumentService.convert_to_chunks` (document_service.py lines 208-246):
status to ChunkingInProgress, delete chunk rows, delete chunk files, run the
chunker on `file.aggregated_text` with `header_level_cutoff=None`, assert
`len(chunks) == len(chunk_titles)`, status to ChunkingCompleted, insert the
new rows, write the artifact files, status to Completed. -/
def document_convert_to_chunks (st : PipelineState) : Except String PipelineState := do
  let st := update_status st .chunking_in_progress
  let (st, _deleted_rows) := delete_text_chunks_for_processed_file_id st
  let (st, _deleted_dir) := delete_dir st
  let (chunks, chunk_titles, clean_chunk_titles) ←
    convert_text_to_chunks st.file.filename st.file.aggregated_text none
  if chunks.length = chunk_titles.length then
    let st := update_status st .chunking_completed
    let st := bulk_create_text_chunks st
      ((chunks.zip chunk_titles).map (fun p => ⟨p.1, p.2⟩))
    let st := convert_chunks_to_files st chunks clean_chunk_titles
    pure (update_status st .completed)
  else
    .error "Each chunk needs its own title"

/-- The `run_chunk` branch of `DocumentService.process_pdf`
(document_service.py lines 66-74) when only the Chunk step is requested for
an existing Document: `assert file_to_process` holds by construction, then
`delete_dir`, then `convert_to_chunks`. -/
def process_pdf_chunk_only (st : PipelineState) : Except String PipelineState := do
  let (st, _is_deleted) := delete_dir st
  document_convert_to_chunks st

/-! ## DocumentService.get_ocr_of_images (document_service.py lines 130-156)

`process_image` (lines 158-185) calls the external raw-text and completion
collaborators, so the per-page step is an explicit parameter
`step : ExtractedImage → RollingContext → ExtractedImage` returning the
updated Page row.  The loop is instrumented to also record, for each page,
the rolling context handed to `process_image` and the page row it was
called on. -/

structure ExtractedImage where
  image_path : String
  page_number : Nat
  headers : List String := []
  tables : List (List String) := []
  is_table : Bool := false
deriving DecidableEq

abbrev RollingContext := List String × List (List String) × Bool

def context_of (img : ExtractedImage) : RollingContext :=
  (img.headers, img.tables, img.is_table)

/-- `RepositoryService.get_extracted_images_for_file` (repository_service.py
line 203): the file's Page rows ordered by `page_number`. -/
def get_extracted_images_for_file (imgs : List ExtractedImage) : List ExtractedImage :=
  imgs.mergeSort (fun a b => decide (a.page_number ≤ b.page_number))

/-- The `for index, image in enumerate(images_to_process)` loop of
`get_ocr_of_images` (document_service.py lines 140-150), recording for each
iteration the context passed in, the page processed, and the updated page;
the next iteration's context is read back from the updated page's fields
(lines 148-150). -/
def ocrLoop (step : ExtractedImage → RollingContext → ExtractedImage) :
    List ExtractedImage → RollingContext →
    List (RollingContext × ExtractedImage × ExtractedImage)
  | [], _ => []
  | img :: rest, ctx =>
    let img' := step img ctx
    (ctx, img, img') :: ocrLoop step rest (context_of img')

/-- `DocumentService.get_ocr_of_images` (lines 130-156): the rolling context
starts empty (`current_headers = []`, `current_tables = []`,
`current_is_table = False`, lines 133-135). -/
def get_ocr_of_images (step : ExtractedImage → RollingContext → ExtractedImage)
    (images_to_process : List ExtractedImage) :
    List (RollingContext × ExtractedImage × ExtractedImage) :=
  ocrLoop step images_to_process ([], [], false)

/-! ## Spec-side definitions

These follow the wording of the specification (section 4.1 for table runs,
section 4.6 for the cutoff heuristic) and of the claims, for comparison
against the embedded source functions above. -/

/-- Spec 4.1: "A line is a table row iff it starts with `|`". -/
def isTableRow (line : String) : Bool := startsWithChar line '|'

/-- Spec 4.1: "a maximal run of consecutive table-row lines forms one table
block. Table blocks are collected in document order; if the text ends while
still inside a table-row run ... that partial block is included as the
final table block." -/
def maximalRuns : List String → List (List String)
  | [] => []
  | l :: rest =>
    if isTableRow l then
      (l :: rest.takeWhile isTableRow) :: maximalRuns (rest.dropWhile isTableRow)
    else maximalRuns rest
termination_by ls => ls.length
decreasing_by
  · simp only [List.length_cons]
    have : (rest.dropWhile isTableRow).length ≤ rest.length := by
      induction rest with
      | nil => simp [List.dropWhile]
      | cons a t ih =>
        by_cases h : isTableRow a
        · simp only [List.dropWhile, h]
          exact Nat.le_succ_of_le ih
        · simp [List.dropWhile, h]
    omega
  · simp

/-- The level of a markdown header line: the count of leading `#`. -/
def headerLevel (line : String) : Nat := (line.data.takeWhile (· == '#')).length

/-- The header levels of a text's lines, in scan order. -/
def headerLevels (lines : List String) : List Nat :=
  lines.filterMap (fun line =>
    if startsWithChar line '#' then some (headerLevel line) else none)

/-- The distinct values of a list, each kept at its first occurrence, in
first-occurrence order (the key order of a Python dict filled by that
list). -/
def dedupFirst : List Nat → List Nat
  | [] => []
  | k :: rest => k :: (dedupFirst rest).filter (fun j => j ≠ k)

/-- The largest per-level occurrence count of a level list. -/
def maxCount (lv : List Nat) : Nat := (lv.map (fun k => lv.count k)).foldr max 0

/-- The cutoff the amended claim describes: the level of highest occurrence
count, ties broken in favor of the level that OCCURS FIRST in the text;
`0` when there are no header lines. -/
def specCutoff (lv : List Nat) : Nat :=
  match (dedupFirst lv).find? (fun k => lv.count k == maxCount lv) with
  | some k => k
  | none => 0

/-- The scan position (0-based, over header lines) at which a level's count
reaches its final value: the index of the level's last occurrence. -/
def lastIndexOf (lv : List Nat) (k : Nat) : Nat :=
  lv.length - 1 - lv.reverse.indexOf k

/-- The cutoff claim C8 describes, read literally: among the levels of
maximal occurrence count, the one whose maximum count is REACHED first in
scan order, i.e. whose last occurrence comes first. -/
def claimCutoff (lv : List Nat) : Nat :=
  match (dedupFirst lv).filter (fun k => lv.count k == maxCount lv) with
  | [] => 0
  | c :: cs =>
    cs.foldl (fun best k => if lastIndexOf lv k < lastIndexOf lv best then k else best) c

/-- The table-accumulation part of the scanner loop, in isolation: `acc`
holds the stripped rows of the run currently being accumulated. -/
def tableRunsFrom : List String → List String → List (List String)
  | acc, [] => if acc.length > 0 then [acc] else []
  | acc, line :: rest =>
    if isTableRow line then tableRunsFrom (acc ++ [pyStrip line]) rest
    else if acc.length > 0 then acc :: tableRunsFrom [] rest
    else tableRunsFrom [] rest

/-- A concrete per-page step used to ground the C9 theorem on an input. -/
def witnessStep (img : ExtractedImage) (ctx : RollingContext) : ExtractedImage :=
  { img with headers := img.image_path :: ctx.1, is_table := true }

/-- A concrete two-page Document whose pages arrive out of order. -/
def witnessPages : List ExtractedImage :=
  [{ image_path := "p2.png", page_number := 2 }, { image_path := "p1.png", page_number := 1 }]

/-- The largest second component of an association list (0 when empty). -/
def maxSnd (L : List (Nat × Nat)) : Nat := (L.map (fun e => e.2)).foldr max 0

/-! # Theorems for the claims -/

/-- C1: the claimed cardinality invariant `len(chunkBodies) ==
len(chunkTitlesRaw) == len(chunkTitlesClean)` FAILS on the code, exactly on
the inputs the claim singles out: for filename "f", markdown text "body"
(body text, no header line at or below the cutoff) and cutoff 3, the
Hierarchical Chunker emits one chunk body but zero raw titles and zero
clean titles.  `DocumentService.convert_to_chunks`'s own assertion
`len(chunks) == len(chunk_titles)` (document_service.py line 226) fires on
this output, so the code contradicts its own assertion: a code bug. -/
theorem C1_cardinality_invariant_fails_on_headerless_text :
    convert_markdown_to_chunks "f" (some "body") 3 = .ok (["f\nbody"], [], []) ∧
    (["f\nbody"] : List String).length ≠ ([] : List String).length := by
  decide

/-- C2 counterexample: a header line at a level at or below the cutoff does
NOT always close a chunk that has content beyond its seed.  With filename
"f" and cutoff 2, after the lines "# A" and "content" the current chunk is
["f", "# A", "content"] — content beyond the seed (filename plus the
breadcrumb header "# A") — yet processing the cutoff-level header "## B"
leaves the emitted-chunks list empty (the chunk is not closed), because the
code's boundary test compares against the CURRENT header-map size (which
just grew to 2 by recording "## B"), not against the chunk's seed.  The
whole run therefore emits no chunk body at all. -/
theorem C2_counterexample_boundary_law :
    (pythonLines "# A\ncontent\n").foldlM (chunkStep "f" 2) (initialChunkState "f")
      = .ok ⟨[(1, "# A")], ["f", "# A", "content"], [], ["# A"]⟩ ∧
    chunkStep "f" 2 ⟨[(1, "# A")], ["f", "# A", "content"], [], ["# A"]⟩ "## B"
      = .ok ⟨[(1, "# A"), (2, "## B")], ["f", "# A", "content"], [], ["# A"]⟩ ∧
    convert_markdown_to_chunks "f" (some "# A\ncontent\n## B") 2
      = .ok ([], ["# A"], ["A"]) := by
  decide

/-- C3 counterexample: a chunk's breadcrumb seed is NOT listed in ascending
header-level order, and a header at or below the cutoff does NOT always
discard deeper headerMap entries.  With filename "f", cutoff 2 and text
"## B\n# A\nt1\nt2\n## C\nt3", the second chunk's body is
"f\n## C\n# A\nt3": its breadcrumb lists the level-2 header "## C" before
the level-1 header "# A" (headerMap values are in insertion order, and the
level-2 entry survived the later level-1 header "# A" because entries are
only purged when a chunk boundary actually fires). -/
theorem C3_counterexample_breadcrumb_order :
    convert_markdown_to_chunks "f" (some "## B\n# A\nt1\nt2\n## C\nt3") 2
      = .ok (["f\n## B\nt1\nt2", "f\n## C\n# A\nt3"], ["## B", "## C"], ["B", "C"]) ∧
    headerLevel "## C" = 2 ∧ headerLevel "# A" = 1 ∧ ¬ (2 ≤ (1 : Nat)) := by
  decide

/-- C4: the claim that requesting only the Chunk stage on a Document with
absent aggregated text fails with a precondition error before doing any
work is RIGHT about the spec's intent but WRONG about the code: the code
has no such precondition check.  Starting from a Document in status
TextAggregated with `aggregated_text = None` and one existing chunk record
and one chunk artifact file, the chunk-only pipeline run SUCCEEDS: it
deletes the existing chunk record and file, creates zero new chunk records
(the chunker on no lines returns empty lists, so the count assertion 0 == 0
passes), and drives the status to Completed. -/
theorem C4_chunk_stage_missing_precondition :
    (process_pdf_chunk_only
      { file := { filename := "doc", status := .text_aggregated, aggregated_text := none }
        text_chunks := [⟨"old chunk body", "old title"⟩]
        chunk_files := [("old title", "old chunk body")] }).map
      (fun st => (st.file.status, st.text_chunks, st.chunk_files))
      = .ok (.completed, [], []) := by
  decide

/-- C5 counterexample: `correct_header_levels` does NOT validate the line
count of the completion collaborator's response and does NOT fall back to
the original new headers on a cardinality mismatch: with existing headers
["# A"] and new headers ["## B"] (one line), a two-line completion response
"# X\n# Y" is accepted as-is, yielding two headers instead of the original
one. -/
theorem C5_counterexample_no_cardinality_validation :
    correct_header_levels "# X\n# Y" ["# A"] ["## B"] = ["# X", "# Y"] ∧
    (["# X", "# Y"] : List String).length ≠ (["## B"] : List String).length ∧
    correct_header_levels "# X\n# Y" ["# A"] ["## B"] ≠ ["## B"] := by
  decide

/-- C6: the claim that the Structural Scanner rejects every empty or
whitespace-only input is RIGHT about the documented contract (the
docstring says "Raises ValueError: If the input string `s` is empty", and
the sibling implementation in utils/strings.py line 59 uses
`if not s.strip()`), but the code's guard is `if s and not s.strip()`
(markdown_service.py line 67): the EMPTY string is falsy, skips the guard,
and is scanned successfully, while a nonempty whitespace-only string is
rejected.  A code bug on input `""`. -/
theorem C6_empty_string_not_rejected :
    get_markdown_headers_and_tables "" = .ok ⟨[], [], false⟩ ∧
    get_markdown_headers_and_tables " \n " = .error "Input string cannot be empty" := by
  decide

/-- C8 counterexample: the tie-break of the automatic cutoff is NOT "the
level whose maximum count is reached first in scan order".  In
"# a\n## b\n## c\n# d" the levels appear in order [1, 2, 2, 1]; level 2
reaches the shared maximum count 2 at scan position 2, before level 1
reaches it at position 3, so the claim predicts cutoff 2 — but the code
returns 1, because the selection loop walks the counts dict in
first-INSERTION order and keeps the first strict maximum. -/
theorem C8_counterexample_tiebreak :
    get_header_level_cutoff (some "# a\n## b\n## c\n# d") = .ok 1 ∧
    headerLevels (pythonLines "# a\n## b\n## c\n# d") = [1, 2, 2, 1] ∧
    claimCutoff [1, 2, 2, 1] = 2 ∧ (1 : Nat) ≠ 2 := by
  decide

/-! ## Helper lemmas -/

/-- On a line starting with `'#'`, `count_consecutive_chars` from position 0
succeeds and returns the leading-`#` count, which is at least 1. -/
theorem ccc_hash (line : String) (h : startsWithChar line '#' = true) :
    ∃ pos, count_consecutive_chars line 0 '#' = .ok (headerLevel line, pos) ∧
      1 ≤ headerLevel line := by
  obtain ⟨data⟩ := line
  cases data with
  | nil => simp [startsWithChar] at h
  | cons c cs =>
    have hc : c = '#' := by simpa [startsWithChar] using h
    subst hc
    have hmain : count_consecutive_chars ⟨'#' :: cs⟩ 0 '#' =
        .ok (headerLevel ⟨'#' :: cs⟩,
          (if (0 : Int).toNat + headerLevel ⟨'#' :: cs⟩ < ('#' :: cs).length
            then (0 : Int) + (headerLevel ⟨'#' :: cs⟩ : Int)
            else (('#' :: cs).length : Int) - 1) - 1) := by
      unfold count_consecutive_chars
      rw [if_neg (by simp)]
      rfl
    exact ⟨_, hmain, by simp [headerLevel, List.takeWhile]⟩

theorem countsLoop_ok (lines : List String) (m : List (Nat × Nat)) :
    ∃ r, countsLoop lines m = .ok r := by
  induction lines generalizing m with
  | nil => exact ⟨m, rfl⟩
  | cons line rest ih =>
    by_cases h : startsWithChar line '#' = true
    · obtain ⟨pos, hc, _⟩ := ccc_hash line h
      unfold countsLoop
      rw [if_pos h, hc]
      exact ih _
    · unfold countsLoop
      rw [if_neg h]
      exact ih m

theorem chunkStep_ok (filename : String) (cutoff : Nat) (st : ChunkState) (line : String) :
    ∃ st', chunkStep filename cutoff st line = .ok st' := by
  by_cases h : startsWithChar line '#' = true
  · obtain ⟨pos, hc, _⟩ := ccc_hash line h
    unfold chunkStep
    rw [if_pos h, hc]
    dsimp only
    repeat first
    | exact ⟨_, rfl⟩
    | split
  · exact ⟨_, by unfold chunkStep; rw [if_neg h]⟩

theorem chunkFold_ok (filename : String) (cutoff : Nat) (lines : List String)
    (st : ChunkState) :
    ∃ st', lines.foldlM (chunkStep filename cutoff) st = .ok st' := by
  induction lines generalizing st with
  | nil => exact ⟨st, rfl⟩
  | cons line rest ih =>
    obtain ⟨st1, h1⟩ := chunkStep_ok filename cutoff st line
    simp only [List.foldlM, h1]
    exact ih st1

/-- C10: every call the chunking code makes to `count_consecutive_chars` is
made with start position 0 on a line that starts with `'#'`, where the
bounds precondition holds, so the call succeeds with a header level of at
least 1 (first conjunct); consequently neither `get_header_level_cutoff`
nor `convert_markdown_to_chunks` can ever surface the "Start position out
of bounds" error — they succeed on every input (second and third
conjuncts). -/
theorem C10_ccc_precondition_unreachable :
    (∀ line : String, startsWithChar line '#' = true →
      ∃ pos, count_consecutive_chars line 0 '#' = .ok (headerLevel line, pos) ∧
        1 ≤ headerLevel line) ∧
    (∀ t : Option String, ∃ c, get_header_level_cutoff t = .ok c) ∧
    (∀ (f : String) (t : Option String) (k : Nat),
      ∃ r, convert_markdown_to_chunks f t k = .ok r) := by
  refine ⟨ccc_hash, ?_, ?_⟩
  · intro t
    obtain ⟨m, hm⟩ := countsLoop_ok (pythonLinesOpt t) []
    exact ⟨pickCutoff m, by simp [get_header_level_cutoff, hm]⟩
  · intro f t k
    obtain ⟨st, hst⟩ := chunkFold_ok f k (pythonLinesOpt t) (initialChunkState f)
    exact ⟨((if st.headerMap.length + 1 < st.currentChunk.length
              then st.chunks ++ [st.currentChunk] else st.chunks).map joinLines,
            st.chunkTitles, st.chunkTitles.map cleanTitle),
      by simp only [convert_markdown_to_chunks, hst]; rfl⟩

/-- C10 witness: the theorem applied at the concrete header line "## B\n",
the concrete text "# A\nbody" and concrete chunker arguments. -/
theorem C10_witness :
    (∃ pos, count_consecutive_chars "## B\n" 0 '#' = .ok (headerLevel "## B\n", pos) ∧
      1 ≤ headerLevel "## B\n") ∧
    (∃ c, get_header_level_cutoff (some "# A\nbody") = .ok c) ∧
    (∃ r, convert_markdown_to_chunks "f" (some "# A\nbody") 3 = .ok r) :=
  ⟨C10_ccc_precondition_unreachable.1 "## B\n" (by decide),
   C10_ccc_precondition_unreachable.2.1 (some "# A\nbody"),
   C10_ccc_precondition_unreachable.2.2 "f" (some "# A\nbody") 3⟩

/-- C5 (amended): `refine_headers` — the header-reconciliation step the
Page Processor actually runs — returns the freshly scanned headers
unchanged: its result does not depend on the previously established
headers at all (the `correct_header_levels` call is commented out in the
source), so cardinality and text of the new headers are preserved
trivially, while no validation of any completion response takes place (see
the counterexample for `correct_header_levels`). -/
theorem C5_amended_refine_headers_returns_scanned (input_text : String)
    (headers1 headers2 : List String) :
    refine_headers input_text headers1 = refine_headers input_text headers2 ∧
    (∀ r, get_markdown_headers_and_tables input_text = .ok r →
      refine_headers input_text headers1 = .ok (input_text, r.headers, r.tables, r.endsInTable)) := by
  constructor
  · cases h : get_markdown_headers_and_tables input_text with
    | error e => simp [refine_headers, h]
    | ok r => simp [refine_headers, h]
  · intro r hr
    simp [refine_headers, hr]

/-- C5 witness: the amended theorem applied at the concrete page text
"# T" with two different previously-established header lists. -/
theorem C5_amended_witness :
    refine_headers "# T" ["# Old"] = refine_headers "# T" ["# Other", "## Two"] ∧
    refine_headers "# T" ["# Old"] = .ok ("# T", ["# T"], [], false) := by
  have h := C5_amended_refine_headers_returns_scanned "# T" ["# Old"] ["# Other", "## Two"]
  refine ⟨h.1, ?_⟩
  have h2 := h.2 ⟨["# T"], [], false⟩ (by decide)
  simpa using h2

/-- Replacing the value at an existing key leaves the key list unchanged. -/
theorem map_fst_replace (m : List (Nat × String)) (k : Nat) (v : String) :
    (m.map (fun e => if e.1 == k then (k, v) else e)).map Prod.fst = m.map Prod.fst := by
  induction m with
  | nil => rfl
  | cons e t ih =>
    simp only [List.map_cons]
    by_cases he : (e.1 == k) = true
    · rw [if_pos he, ih]
      have h1 : e.1 = k := by simpa using he
      rw [h1]
    · rw [if_neg he, ih]

/-- `updateHeaderMap` keeps the header-map keys duplicate-free: one entry
per level. -/
theorem updateHeaderMap_fst_nodup (m : List (Nat × String)) (k : Nat) (v : String)
    (h : (m.map Prod.fst).Nodup) :
    ((updateHeaderMap m k v).map Prod.fst).Nodup := by
  unfold updateHeaderMap
  by_cases hmem : m.any (fun e => e.1 == k) = true
  · rw [if_pos hmem, map_fst_replace]
    exact h
  · rw [if_neg hmem]
    have hk : k ∉ m.map Prod.fst := by
      intro hcon
      obtain ⟨e, he, hfst⟩ := List.mem_map.mp hcon
      exact hmem (List.any_eq_true.mpr ⟨e, he, by simp [hfst]⟩)
    simp only [List.map_append, List.map_cons, List.map_nil]
    rw [List.nodup_append]
    exact ⟨h, List.nodup_singleton k, by simpa using hk⟩

/-- C2 (amended): a header line at a level greater than the cutoff never
closes a chunk; a header line at a level at or below the cutoff closes the
current chunk exactly when the chunk's line count (after the first-chunk
branch possibly appended the header itself) EXCEEDS ONE PLUS THE CURRENT
HEADER-MAP SIZE, the map having just recorded this header.  This is the
code's actual boundary law; it is not "has content beyond its seed",
because the map may have gained levels (including levels deeper than the
cutoff) since the chunk's seed was laid down — see the counterexample. -/
theorem C2_amended_boundary_law (filename : String) (cutoff : Nat) (st : ChunkState)
    (line : String) (level : Nat) (pos : Int)
    (hline : startsWithChar line '#' = true)
    (hccc : count_consecutive_chars line 0 '#' = .ok (level, pos)) :
    ∃ st', chunkStep filename cutoff st line = .ok st' ∧
      (cutoff < level → st'.chunks = st.chunks ∧ st'.chunkTitles = st.chunkTitles) ∧
      (level ≤ cutoff →
        ((updateHeaderMap st.headerMap level (pyStrip line)).length + 1 <
            (if st.chunks.length = 0 ∧ st.chunkTitles.length = 0
              then st.currentChunk ++ [pyStrip line] else st.currentChunk).length →
          st'.chunks = st.chunks ++
            [if st.chunks.length = 0 ∧ st.chunkTitles.length = 0
              then st.currentChunk ++ [pyStrip line] else st.currentChunk]) ∧
        (¬ ((updateHeaderMap st.headerMap level (pyStrip line)).length + 1 <
            (if st.chunks.length = 0 ∧ st.chunkTitles.length = 0
              then st.currentChunk ++ [pyStrip line] else st.currentChunk).length) →
          st'.chunks = st.chunks)) := by
  unfold chunkStep
  rw [if_pos hline, hccc]
  dsimp only
  by_cases hcl : cutoff < level
  · rw [if_pos hcl]
    exact ⟨_, rfl, fun _ => ⟨rfl, rfl⟩, fun hle => absurd hcl (not_lt.mpr hle)⟩
  · rw [if_neg hcl]
    by_cases hfirst : st.chunks.length = 0 ∧ st.chunkTitles.length = 0
    · simp only [if_pos hfirst]
      by_cases hb : (updateHeaderMap st.headerMap level (pyStrip line)).length + 1 <
          (st.currentChunk ++ [pyStrip line]).length
      · rw [if_pos hb]
        exact ⟨_, rfl, fun hcl' => absurd hcl' hcl, fun _ => ⟨fun _ => rfl, fun hnb => absurd hb hnb⟩⟩
      · rw [if_neg hb]
        exact ⟨_, rfl, fun hcl' => absurd hcl' hcl, fun _ => ⟨fun hb' => absurd hb' hb, fun _ => rfl⟩⟩
    · simp only [if_neg hfirst]
      by_cases hb : (updateHeaderMap st.headerMap level (pyStrip line)).length + 1 <
          st.currentChunk.length
      · rw [if_pos hb]
        exact ⟨_, rfl, fun hcl' => absurd hcl' hcl, fun _ => ⟨fun _ => rfl, fun hnb => absurd hb hnb⟩⟩
      · rw [if_neg hb]
        exact ⟨_, rfl, fun hcl' => absurd hcl' hcl, fun _ => ⟨fun hb' => absurd hb' hb, fun _ => rfl⟩⟩

/-- C2 witness: the amended boundary law applied at the concrete state
reached after "# A" and "content" (filename "f", cutoff 2) and the concrete
cutoff-level header line "## B": the boundary condition is false (3 < 3
fails), so no chunk is emitted. -/
theorem C2_amended_boundary_law_witness :
    ∃ st', chunkStep "f" 2 ⟨[(1, "# A")], ["f", "# A", "content"], [], ["# A"]⟩ "## B"
        = .ok st' ∧ st'.chunks = ([] : List (List String)) := by
  obtain ⟨st', hok, _, hle⟩ :=
    C2_amended_boundary_law "f" 2 ⟨[(1, "# A")], ["f", "# A", "content"], [], ["# A"]⟩
      "## B" 2 1 (by decide) (by decide)
  exact ⟨st', hok, (hle (by decide)).2 (by decide)⟩

/-- C3 (amended): when a header at or below the cutoff actually closes a
chunk, the new chunk's seed is the filename followed by the retained
header-map entries' texts in MAP (insertion) order — one entry per level
(the key list stays duplicate-free) and every retained level is at most the
new header's level, hence at most the cutoff; entries at deeper levels are
discarded exactly at such a boundary.  When no boundary fires, the map is
only updated at the header's level and NOTHING is discarded (the claim's
"whenever a header ≤ cutoff is processed, deeper entries are discarded" is
wrong; see the counterexample, which also shows the insertion order need
not be ascending level order). -/
theorem C3_amended_breadcrumb_seed (filename : String) (cutoff : Nat) (st : ChunkState)
    (line : String) (level : Nat) (pos : Int)
    (hline : startsWithChar line '#' = true)
    (hccc : count_consecutive_chars line 0 '#' = .ok (level, pos))
    (hle : level ≤ cutoff) :
    ∃ st', chunkStep filename cutoff st line = .ok st' ∧
      ((updateHeaderMap st.headerMap level (pyStrip line)).length + 1 <
          (if st.chunks.length = 0 ∧ st.chunkTitles.length = 0
            then st.currentChunk ++ [pyStrip line] else st.currentChunk).length →
        st'.currentChunk = filename :: st'.headerMap.map (fun e => e.2) ∧
        (∀ e ∈ st'.headerMap, e.1 ≤ level ∧ e.1 ≤ cutoff)) ∧
      (¬ ((updateHeaderMap st.headerMap level (pyStrip line)).length + 1 <
          (if st.chunks.length = 0 ∧ st.chunkTitles.length = 0
            then st.currentChunk ++ [pyStrip line] else st.currentChunk).length) →
        st'.headerMap = updateHeaderMap st.headerMap level (pyStrip line)) ∧
      ((st.headerMap.map Prod.fst).Nodup → (st'.headerMap.map Prod.fst).Nodup) := by
  unfold chunkStep
  rw [if_pos hline, hccc]
  dsimp only
  rw [if_neg (not_lt.mpr hle)]
  have hmem : ∀ e, e ∈ (updateHeaderMap st.headerMap level (pyStrip line)).filter
      (fun e => decide (e.1 ≤ level)) → e.1 ≤ level ∧ e.1 ≤ cutoff := by
    intro e he
    have h1 : decide (e.1 ≤ level) = true := (List.mem_filter.mp he).2
    have h2 : e.1 ≤ level := by simpa using h1
    exact ⟨h2, le_trans h2 hle⟩
  have hnd : (st.headerMap.map Prod.fst).Nodup →
      (((updateHeaderMap st.headerMap level (pyStrip line)).filter
        (fun e => decide (e.1 ≤ level))).map Prod.fst).Nodup := by
    intro h
    have hsub : List.Sublist
        (((updateHeaderMap st.headerMap level (pyStrip line)).filter
          (fun e => decide (e.1 ≤ level))).map Prod.fst)
        ((updateHeaderMap st.headerMap level (pyStrip line)).map Prod.fst) :=
      List.Sublist.map Prod.fst (List.filter_sublist _)
    exact List.Nodup.sublist hsub (updateHeaderMap_fst_nodup st.headerMap level (pyStrip line) h)
  by_cases hfirst : st.chunks.length = 0 ∧ st.chunkTitles.length = 0
  · simp only [if_pos hfirst]
    by_cases hb : (updateHeaderMap st.headerMap level (pyStrip line)).length + 1 <
        (st.currentChunk ++ [pyStrip line]).length
    · rw [if_pos hb]
      exact ⟨_, rfl, fun _ => ⟨rfl, hmem⟩, fun hnb => absurd hb hnb, hnd⟩
    · rw [if_neg hb]
      exact ⟨_, rfl, fun hb' => absurd hb' hb, fun _ => rfl,
        updateHeaderMap_fst_nodup st.headerMap level (pyStrip line)⟩
  · simp only [if_neg hfirst]
    by_cases hb : (updateHeaderMap st.headerMap level (pyStrip line)).length + 1 <
        st.currentChunk.length
    · rw [if_pos hb]
      exact ⟨_, rfl, fun _ => ⟨rfl, hmem⟩, fun hnb => absurd hb hnb, hnd⟩
    · rw [if_neg hb]
      exact ⟨_, rfl, fun hb' => absurd hb' hb, fun _ => rfl,
        updateHeaderMap_fst_nodup st.headerMap level (pyStrip line)⟩

/-- C3 witness: the amended theorem applied at the concrete state reached
after "## B\n# A\nt1\nt2" (filename "f", cutoff 2) and the boundary header
"## C": the new chunk's seed is the filename followed by the retained map
entries in insertion order, here ["f", "## C", "# A"]. -/
theorem C3_amended_breadcrumb_seed_witness :
    ∃ st', chunkStep "f" 2
        ⟨[(2, "## B"), (1, "# A")], ["f", "## B", "t1", "t2"], [], ["## B"]⟩ "## C"
        = .ok st' ∧ st'.currentChunk = "f" :: st'.headerMap.map (fun e => e.2) := by
  obtain ⟨st', hok, hbound, _, _⟩ :=
    C3_amended_breadcrumb_seed "f" 2
      ⟨[(2, "## B"), (1, "# A")], ["f", "## B", "t1", "t2"], [], ["## B"]⟩
      "## C" 2 1 (by decide) (by decide) (by decide)
  exact ⟨st', hok, (hbound (by decide)).1⟩

/-! ## C7: the scanner's table blocks are the maximal pipe-line runs -/

theorem length_dropWhile_le {α : Type} (p : α → Bool) (l : List α) :
    (l.dropWhile p).length ≤ l.length := by
  induction l with
  | nil => simp [List.dropWhile]
  | cons a t ih =>
    by_cases h : p a = true
    · simp only [List.dropWhile, h]
      exact Nat.le_succ_of_le ih
    · simp [List.dropWhile, h]

theorem scanLines_tables (lines : List String) :
    ∀ (headers : List String) (tables : List (List String)) (acc : List String) (b : Bool),
      (scanLines lines headers tables acc b).tables = tables ++ tableRunsFrom acc lines := by
  induction lines with
  | nil =>
    intro headers tables acc b
    by_cases h : acc.length > 0 <;> simp [scanLines, tableRunsFrom, h]
  | cons line rest ih =>
    intro headers tables acc b
    simp only [scanLines, tableRunsFrom]
    by_cases hp : startsWithChar line '|' = true
    · rw [if_pos hp, if_pos (show isTableRow line = true from hp), ih]
    · rw [if_neg hp, if_neg (show ¬ isTableRow line = true from hp)]
      by_cases ha : acc.length > 0
      · rw [if_pos ha, if_pos ha, ih]
        simp
      · rw [if_neg ha, if_neg ha, ih]
        have : acc = [] := List.length_eq_zero.mp (by omega)
        rw [this]

theorem tableRunsFrom_cons (lines : List String) :
    ∀ acc : List String, acc ≠ [] →
      tableRunsFrom acc lines =
        (acc ++ (lines.takeWhile isTableRow).map pyStrip) ::
          tableRunsFrom [] (lines.dropWhile isTableRow) := by
  induction lines with
  | nil =>
    intro acc hne
    have : acc.length > 0 := List.length_pos.mpr hne
    simp [tableRunsFrom, this, List.takeWhile, List.dropWhile]
  | cons line rest ih =>
    intro acc hne
    by_cases hp : isTableRow line = true
    · simp only [tableRunsFrom, if_pos hp, List.takeWhile_cons, List.dropWhile_cons, hp,
        if_true, List.map_cons]
      rw [ih (acc ++ [pyStrip line]) (by simp)]
      simp
    · have hb : (isTableRow line) = false := Bool.eq_false_iff.mpr hp
      have : acc.length > 0 := List.length_pos.mpr hne
      simp only [tableRunsFrom, hb, Bool.false_eq_true, if_false, if_pos this,
        List.takeWhile_cons, List.dropWhile_cons, List.map_nil, List.append_nil]
      rfl

theorem tableRunsFrom_nil_eq (lines : List String) :
    tableRunsFrom [] lines = (maximalRuns lines).map (List.map pyStrip) := by
  have H : ∀ (n : Nat) (ls : List String), ls.length ≤ n →
      tableRunsFrom [] ls = (maximalRuns ls).map (List.map pyStrip) := by
    intro n
    induction n with
    | zero =>
      intro ls h
      have : ls = [] := List.eq_nil_of_length_eq_zero (Nat.le_zero.mp h)
      subst this
      simp [tableRunsFrom, maximalRuns]
    | succ n ih =>
      intro ls h
      match ls with
      | [] => simp [tableRunsFrom, maximalRuns]
      | line :: rest =>
        by_cases hp : isTableRow line = true
        · rw [show tableRunsFrom [] (line :: rest)
              = tableRunsFrom ([] ++ [pyStrip line]) rest by simp [tableRunsFrom, hp]]
          rw [tableRunsFrom_cons rest ([] ++ [pyStrip line]) (by simp)]
          rw [ih (rest.dropWhile isTableRow)
            (le_trans (length_dropWhile_le isTableRow rest) (by simpa using h))]
          rw [show maximalRuns (line :: rest)
              = (line :: rest.takeWhile isTableRow) :: maximalRuns (rest.dropWhile isTableRow)
            by rw [maximalRuns]; rw [if_pos hp]]
          simp
        · have hb : (isTableRow line) = false := Bool.eq_false_iff.mpr hp
          rw [show tableRunsFrom [] (line :: rest) = tableRunsFrom [] rest
            by simp [tableRunsFrom, hb]]
          rw [show maximalRuns (line :: rest) = maximalRuns rest
            by rw [maximalRuns]; rw [if_neg hp]]
          exact ih rest (by simpa using h)
  exact H lines.length lines le_rfl

theorem scanLines_endsInTable (lines : List String) :
    ∀ (headers : List String) (tables : List (List String)) (acc : List String) (b : Bool)
      (last : String), lines.getLast? = some last → startsWithChar last '|' = true →
      (scanLines lines headers tables acc b).endsInTable = true := by
  induction lines with
  | nil => intro _ _ _ _ _ h; simp at h
  | cons line rest ih =>
    intro headers tables acc b last hlast hrow
    match rest with
    | [] =>
      have hll : line = last := by simpa using hlast
      subst hll
      simp [scanLines, hrow]
    | r :: rs =>
      have hlast' : (r :: rs).getLast? = some last := by
        simpa [List.getLast?_cons_cons] using hlast
      simp only [scanLines]
      by_cases hp : startsWithChar line '|' = true
      · rw [if_pos hp]
        exact ih _ _ _ _ last hlast' hrow
      · rw [if_neg hp]
        by_cases ha : acc.length > 0
        · rw [if_pos ha]
          exact ih _ _ _ _ last hlast' hrow
        · rw [if_neg ha]
          exact ih _ _ _ _ last hlast' hrow

/-- C7: for every input the Structural Scanner accepts, the table blocks it
returns are exactly the maximal runs of consecutive lines starting with
`'|'` (each row stripped), in document order; if the text ends inside such
a run, the partial block is included (it is the last element of
`maximalRuns`) and the ends-in-table flag is true.  Concretely, scanning
"| H1 | H2 |\n|---|---|\n| a | b |" yields one table block of 3 lines with
endsInTable = true. -/
theorem C7_scanner_table_runs (s : String) (out : ScanResult)
    (h : get_markdown_headers_and_tables s = .ok out) :
    out.tables = (maximalRuns (pythonLines s)).map (List.map pyStrip) ∧
    (∀ last, (pythonLines s).getLast? = some last → isTableRow last = true →
      out.endsInTable = true) ∧
    get_markdown_headers_and_tables "| H1 | H2 |\n|---|---|\n| a | b |"
      = .ok ⟨[], [["| H1 | H2 |", "|---|---|", "| a | b |"]], true⟩ := by
  unfold get_markdown_headers_and_tables at h
  split at h
  · cases h
  · have hout : out = scanLines (pythonLines s) [] [] [] false :=
      (Except.ok.injEq _ _).mp h.symm
    subst hout
    refine ⟨?_, ?_, by decide⟩
    · rw [scanLines_tables, tableRunsFrom_nil_eq]
      rfl
    · intro last hlast hrow
      exact scanLines_endsInTable (pythonLines s) [] [] [] false last hlast
        (by simpa [isTableRow] using hrow)

/-- C7 witness: the theorem applied at the concrete input
"| H1 | H2 |\n|---|---|\n| a | b |". -/
theorem C7_scanner_table_runs_witness :
    ∃ out, get_markdown_headers_and_tables "| H1 | H2 |\n|---|---|\n| a | b |" = .ok out ∧
      out.tables = (maximalRuns (pythonLines "| H1 | H2 |\n|---|---|\n| a | b |")).map
        (List.map pyStrip) ∧
      out.endsInTable = true := by
  have h : get_markdown_headers_and_tables "| H1 | H2 |\n|---|---|\n| a | b |" =
      .ok ⟨[], [["| H1 | H2 |", "|---|---|", "| a | b |"]], true⟩ := by decide
  obtain ⟨h1, h2, _⟩ := C7_scanner_table_runs _ _ h
  exact ⟨_, h, h1, h2 "| a | b |" (by decide) (by decide)⟩

/-! ## C9: the OCR stage is a left fold over the pages in page order -/

theorem ocrLoop_inputs (step : ExtractedImage → RollingContext → ExtractedImage) :
    ∀ (l : List ExtractedImage) (ctx : RollingContext),
      (ocrLoop step l ctx).map (fun t => t.2.1) = l := by
  intro l
  induction l with
  | nil => intro ctx; rfl
  | cons img rest ih => intro ctx; simp [ocrLoop, ih]

theorem ocrLoop_length (step : ExtractedImage → RollingContext → ExtractedImage) :
    ∀ (l : List ExtractedImage) (ctx : RollingContext),
      (ocrLoop step l ctx).length = l.length := by
  intro l
  induction l with
  | nil => intro ctx; rfl
  | cons img rest ih => intro ctx; simp [ocrLoop, ih]

theorem ocrLoop_first (step : ExtractedImage → RollingContext → ExtractedImage)
    (l : List ExtractedImage) (ctx : RollingContext) (h : 0 < (ocrLoop step l ctx).length) :
    ((ocrLoop step l ctx).get ⟨0, h⟩).1 = ctx := by
  cases l with
  | nil => simp [ocrLoop] at h
  | cons img rest => rfl

theorem ocrLoop_step_eq (step : ExtractedImage → RollingContext → ExtractedImage) :
    ∀ (l : List ExtractedImage) (ctx : RollingContext) (i : Nat)
      (h : i < (ocrLoop step l ctx).length),
      ((ocrLoop step l ctx).get ⟨i, h⟩).2.2 =
        step ((ocrLoop step l ctx).get ⟨i, h⟩).2.1 ((ocrLoop step l ctx).get ⟨i, h⟩).1 := by
  intro l
  induction l with
  | nil => intro ctx i h; simp [ocrLoop] at h
  | cons img rest ih =>
    intro ctx i h
    cases i with
    | zero => rfl
    | succ j =>
      have h' : j < (ocrLoop step rest (context_of (step img ctx))).length := by
        simpa [ocrLoop] using h
      exact ih (context_of (step img ctx)) j h'

theorem ocrLoop_thread (step : ExtractedImage → RollingContext → ExtractedImage) :
    ∀ (l : List ExtractedImage) (ctx : RollingContext) (i : Nat)
      (h : i + 1 < (ocrLoop step l ctx).length),
      ((ocrLoop step l ctx).get ⟨i + 1, h⟩).1 =
        context_of (((ocrLoop step l ctx).get ⟨i, Nat.lt_of_succ_lt h⟩).2.2) := by
  intro l
  induction l with
  | nil => intro ctx i h; simp [ocrLoop] at h
  | cons img rest ih =>
    intro ctx i h
    cases i with
    | zero =>
      cases rest with
      | nil => simp [ocrLoop] at h
      | cons r rs => rfl
    | succ j =>
      have h' : j + 1 < (ocrLoop step rest (context_of (step img ctx))).length := by
        simpa [ocrLoop] using h
      exact ih (context_of (step img ctx)) j h'

theorem sorted_pages_le (imgs : List ExtractedImage) :
    List.Pairwise (fun a b => a.page_number ≤ b.page_number)
      (get_extracted_images_for_file imgs) := by
  have htrans : ∀ a b c : ExtractedImage,
      decide (a.page_number ≤ b.page_number) = true →
      decide (b.page_number ≤ c.page_number) = true →
      decide (a.page_number ≤ c.page_number) = true := by
    intro a b c h1 h2
    simp only [decide_eq_true_eq] at h1 h2 ⊢
    exact le_trans h1 h2
  have htotal : ∀ a b : ExtractedImage,
      (decide (a.page_number ≤ b.page_number) || decide (b.page_number ≤ a.page_number)) = true := by
    intro a b
    rcases Nat.le_total a.page_number b.page_number with h | h <;> simp [h]
  have := List.sorted_mergeSort htrans htotal imgs
  exact this.imp (fun h => by simpa using h)

theorem sorted_pages_lt (imgs : List ExtractedImage)
    (hnd : (imgs.map ExtractedImage.page_number).Nodup) :
    List.Pairwise (fun a b => a.page_number < b.page_number)
      (get_extracted_images_for_file imgs) := by
  have hperm : ((get_extracted_images_for_file imgs).map ExtractedImage.page_number).Perm
      (imgs.map ExtractedImage.page_number) :=
    (List.mergeSort_perm imgs _).map ExtractedImage.page_number
  have hnd2 : ((get_extracted_images_for_file imgs).map ExtractedImage.page_number).Nodup :=
    hperm.nodup_iff.mpr hnd
  have hne : List.Pairwise (fun a b : ExtractedImage => a.page_number ≠ b.page_number)
      (get_extracted_images_for_file imgs) := List.pairwise_map.mp hnd2
  have hle := sorted_pages_le imgs
  exact (hle.and hne).imp (fun h => lt_of_le_of_ne h.1 h.2)

/-- C9: the OCR stage processes the stored pages as a left fold strictly in
ascending page-number order: the pages handed to the per-page step are
exactly the store's pages sorted by page number (strictly ascending when
page numbers are distinct, as `convert_to_images` creates them); the first
page is processed with the empty rolling context (no headers, no tables,
ends-in-table false); every later page's rolling context is exactly the
headers/tables/ends-in-table of the immediately preceding page's result;
and each result is precisely the step applied to that page and that
context. -/
theorem C9_ocr_sequential_fold (step : ExtractedImage → RollingContext → ExtractedImage)
    (imgs : List ExtractedImage) :
    ((get_ocr_of_images step (get_extracted_images_for_file imgs)).map (fun t => t.2.1)
      = get_extracted_images_for_file imgs) ∧
    List.Pairwise (fun a b => a.page_number ≤ b.page_number)
      (get_extracted_images_for_file imgs) ∧
    ((imgs.map ExtractedImage.page_number).Nodup →
      List.Pairwise (fun a b => a.page_number < b.page_number)
        (get_extracted_images_for_file imgs)) ∧
    (∀ h : 0 < (get_ocr_of_images step (get_extracted_images_for_file imgs)).length,
      ((get_ocr_of_images step (get_extracted_images_for_file imgs)).get ⟨0, h⟩).1
        = ([], [], false)) ∧
    (∀ (i : Nat) (h : i + 1 < (get_ocr_of_images step (get_extracted_images_for_file imgs)).length),
      ((get_ocr_of_images step (get_extracted_images_for_file imgs)).get ⟨i + 1, h⟩).1 =
        context_of (((get_ocr_of_images step (get_extracted_images_for_file imgs)).get
          ⟨i, Nat.lt_of_succ_lt h⟩).2.2)) ∧
    (∀ (i : Nat) (h : i < (get_ocr_of_images step (get_extracted_images_for_file imgs)).length),
      ((get_ocr_of_images step (get_extracted_images_for_file imgs)).get ⟨i, h⟩).2.2 =
        step ((get_ocr_of_images step (get_extracted_images_for_file imgs)).get ⟨i, h⟩).2.1
          ((get_ocr_of_images step (get_extracted_images_for_file imgs)).get ⟨i, h⟩).1) :=
  ⟨ocrLoop_inputs step _ _, sorted_pages_le imgs, sorted_pages_lt imgs,
   fun h => ocrLoop_first step _ _ h,
   fun i h => ocrLoop_thread step _ _ i h,
   fun i h => ocrLoop_step_eq step _ _ i h⟩

theorem trace_length_witness :
    (get_ocr_of_images witnessStep (get_extracted_images_for_file witnessPages)).length = 2 := by
  show (ocrLoop witnessStep (get_extracted_images_for_file witnessPages) ([], [], false)).length = 2
  rw [ocrLoop_length]
  show (witnessPages.mergeSort _).length = 2
  rw [List.length_mergeSort]
  rfl

/-- C9 witness: the theorem applied to a concrete step function and a
concrete two-page Document whose pages arrive out of order: the trace
processes page 1 then page 2, page 1 with the empty context and page 2
with page 1's output context. -/
theorem C9_ocr_sequential_fold_witness :
    ((get_ocr_of_images witnessStep (get_extracted_images_for_file witnessPages)).map
        (fun t => t.2.1) = get_extracted_images_for_file witnessPages) ∧
    List.Pairwise (fun a b => a.page_number < b.page_number)
      (get_extracted_images_for_file witnessPages) ∧
    ((get_ocr_of_images witnessStep (get_extracted_images_for_file witnessPages)).get
      ⟨0, by rw [trace_length_witness]; decide⟩).1 = ([], [], false) ∧
    ((get_ocr_of_images witnessStep (get_extracted_images_for_file witnessPages)).get
      ⟨1, by rw [trace_length_witness]; decide⟩).1 =
      context_of (((get_ocr_of_images witnessStep (get_extracted_images_for_file witnessPages)).get
        ⟨0, by rw [trace_length_witness]; decide⟩).2.2) := by
  obtain ⟨h1, _, h3, h4, h5, _⟩ := C9_ocr_sequential_fold witnessStep witnessPages
  exact ⟨h1, h3 (by decide), h4 (by rw [trace_length_witness]; decide),
    h5 0 (by rw [trace_length_witness]; decide)⟩

/-! ## C8: characterizing the automatic cutoff -/

theorem dedupFirst_append (lv : List Nat) (k : Nat) :
    dedupFirst (lv ++ [k]) = if k ∈ lv then dedupFirst lv else dedupFirst lv ++ [k] := by
  induction lv with
  | nil => simp [dedupFirst]
  | cons a t ih =>
    have hstep : ∀ rest : List Nat, dedupFirst (a :: rest)
        = a :: (dedupFirst rest).filter (fun j => decide (j ≠ a)) := fun _ => rfl
    rw [List.cons_append, hstep, hstep, ih]
    by_cases hk : k ∈ t
    · rw [if_pos hk, if_pos (List.mem_cons_of_mem a hk)]
    · rw [if_neg hk]
      by_cases hka : k = a
      · subst hka
        rw [if_pos (List.mem_cons_self k t), List.filter_append]
        simp
      · have hnotin : k ∉ a :: t := by
          intro hc
          rcases List.mem_cons.mp hc with h | h
          · exact hka h
          · exact hk h
        rw [if_neg hnotin, List.filter_append]
        simp [hka]

theorem mem_dedupFirst (lv : List Nat) (j : Nat) : j ∈ dedupFirst lv ↔ j ∈ lv := by
  induction lv with
  | nil => simp [dedupFirst]
  | cons a t ih =>
    simp only [dedupFirst, List.mem_cons, List.mem_filter]
    constructor
    · rintro (h | ⟨h1, _⟩)
      · exact Or.inl h
      · exact Or.inr (ih.mp h1)
    · rintro (h | h)
      · exact Or.inl h
      · by_cases hja : j = a
        · exact Or.inl hja
        · exact Or.inr ⟨ih.mpr h, by simpa using hja⟩

theorem lookupAssoc_mapform (L : List Nat) (f : Nat → Nat) (k : Nat) :
    lookupAssoc (L.map (fun j => (j, f j))) k = if k ∈ L then some (f k) else none := by
  induction L with
  | nil => simp [lookupAssoc]
  | cons j t ih =>
    by_cases hj : j = k
    · subst hj
      unfold lookupAssoc
      rw [List.map_cons, List.find?_cons_of_pos _ (by simp)]
      rw [if_pos (List.mem_cons_self j t)]
    · have hpred : ¬ (((j, f j) : Nat × Nat).1 == k) = true := by
        simp only [beq_iff_eq]
        exact hj
      have hiff : (if k ∈ j :: t then some (f k) else none)
          = if k ∈ t then some (f k) else none := by
        by_cases hkt : k ∈ t
        · rw [if_pos hkt, if_pos (List.mem_cons_of_mem j hkt)]
        · have hnotin : k ∉ j :: t := by
            intro hc
            rcases List.mem_cons.mp hc with h | h
            · exact hj h.symm
            · exact hkt h
          rw [if_neg hkt, if_neg hnotin]
      unfold lookupAssoc
      rw [List.map_cons]
      have hfind : List.find? (fun e : Nat × Nat => e.1 == k)
          ((j, f j) :: List.map (fun j => (j, f j)) t)
          = List.find? (fun e : Nat × Nat => e.1 == k) (List.map (fun j => (j, f j)) t) :=
        List.find?_cons_of_neg _ hpred
      rw [hfind, hiff]
      exact ih

theorem updateAssoc_mapform_mem (L : List Nat) (f : Nat → Nat) (k v : Nat) (h : k ∈ L) :
    updateAssoc (L.map (fun j => (j, f j))) k v
      = L.map (fun j => (j, if j = k then v else f j)) := by
  have hany : (L.map (fun j => (j, f j))).any (fun e => e.1 == k) = true :=
    List.any_eq_true.mpr ⟨(k, f k), List.mem_map_of_mem _ h, by simp⟩
  unfold updateAssoc
  rw [if_pos hany, List.map_map]
  apply List.map_congr_left
  intro a _
  by_cases hak : a = k
  · subst hak; simp
  · simp [hak]

theorem updateAssoc_mapform_not_mem (L : List Nat) (f : Nat → Nat) (k v : Nat) (h : k ∉ L) :
    updateAssoc (L.map (fun j => (j, f j))) k v = L.map (fun j => (j, f j)) ++ [(k, v)] := by
  have hany : ¬ (L.map (fun j => (j, f j))).any (fun e => e.1 == k) = true := by
    intro hc
    obtain ⟨e, he, hek⟩ := List.any_eq_true.mp hc
    obtain ⟨j, hj, rfl⟩ := List.mem_map.mp he
    have hjk : j = k := by simpa using hek
    exact h (hjk ▸ hj)
  unfold updateAssoc
  rw [if_neg hany]

theorem buildCounts_eq (lv : List Nat) :
    lv.foldl bumpCount [] = (dedupFirst lv).map (fun k => (k, lv.count k)) := by
  induction lv using List.reverseRecOn with
  | nil => rfl
  | append_singleton l k ih =>
    rw [List.foldl_append, List.foldl_cons, List.foldl_nil, ih]
    by_cases hk : k ∈ l
    · have hkd : k ∈ dedupFirst l := (mem_dedupFirst l k).mpr hk
      have hc0 : l.count k ≠ 0 := by
        have := List.count_pos_iff.mpr hk
        omega
      have hlook : lookupAssoc ((dedupFirst l).map (fun j => (j, l.count j))) k
          = some (l.count k) := by
        rw [lookupAssoc_mapform (dedupFirst l) (fun j => l.count j) k, if_pos hkd]
      unfold bumpCount
      rw [hlook]
      dsimp only
      rw [if_pos hc0]
      rw [updateAssoc_mapform_mem (dedupFirst l) (fun j => l.count j) k (l.count k + 1) hkd]
      rw [dedupFirst_append, if_pos hk]
      apply List.map_congr_left
      intro j _
      by_cases hjk : j = k
      · subst hjk; simp [List.count_append, List.count_singleton]
      · have : ¬ (k == j) = true := by
          simp only [beq_iff_eq]
          exact fun h => hjk h.symm
        simp [hjk, List.count_append, List.count_singleton, this]
    · have hkd : k ∉ dedupFirst l := fun hc => hk ((mem_dedupFirst l k).mp hc)
      have hlook : lookupAssoc ((dedupFirst l).map (fun j => (j, l.count j))) k
          = none := by
        rw [lookupAssoc_mapform (dedupFirst l) (fun j => l.count j) k, if_neg hkd]
      unfold bumpCount
      rw [hlook]
      dsimp only
      rw [updateAssoc_mapform_not_mem (dedupFirst l) (fun j => l.count j) k 1 hkd]
      rw [dedupFirst_append, if_neg hk, List.map_append]
      congr 1
      · apply List.map_congr_left
        intro j hj
        have hjl : j ∈ l := (mem_dedupFirst l j).mp hj
        have hjk : ¬ (k == j) = true := by
          simp only [beq_iff_eq]
          intro hh
          exact hk (hh ▸ hjl)
        simp [List.count_append, List.count_singleton, hjk]
      · have : l.count k = 0 := List.count_eq_zero.mpr hk
        simp [List.count_append, List.count_singleton, this]

theorem le_foldr_max (l : List Nat) (a : Nat) (h : a ∈ l) : a ≤ l.foldr max 0 := by
  induction l with
  | nil => simp at h
  | cons b t ih =>
    rcases List.mem_cons.mp h with hb | ht
    · subst hb; exact le_max_left _ _
    · exact le_trans (ih ht) (le_max_right _ _)

theorem foldr_max_le (l : List Nat) (b : Nat) (h : ∀ a ∈ l, a ≤ b) : l.foldr max 0 ≤ b := by
  induction l with
  | nil => simp
  | cons c t ih =>
    exact max_le (h c (List.mem_cons_self c t)) (ih (fun a ha => h a (List.mem_cons_of_mem c ha)))

theorem sel_all_le (L : List (Nat × Nat)) :
    ∀ p : Nat × Nat, (∀ e ∈ L, e.2 ≤ p.2) →
      L.foldl (fun best e => if best.2 < e.2 then e else best) p = p := by
  induction L with
  | nil => intro p _; rfl
  | cons a t ih =>
    intro p h
    have ha : ¬ p.2 < a.2 := not_lt.mpr (h a (List.mem_cons_self a t))
    simp only [List.foldl_cons, if_neg ha]
    exact ih p (fun e he => h e (List.mem_cons_of_mem a he))

theorem sel_exists_gt (L : List (Nat × Nat)) :
    ∀ p : Nat × Nat, (∃ e ∈ L, p.2 < e.2) →
      ∃ e, L.find? (fun e => e.2 == maxSnd L) = some e ∧
        L.foldl (fun best x => if best.2 < x.2 then x else best) p = e ∧ p.2 < e.2 := by
  induction L with
  | nil => intro p h; simp at h
  | cons a t ih =>
    intro p hex
    by_cases hpa : p.2 < a.2
    · simp only [List.foldl_cons, if_pos hpa]
      by_cases hall : ∀ e ∈ t, e.2 ≤ a.2
      · have hmax : maxSnd (a :: t) = a.2 := by
          unfold maxSnd
          simp only [List.map_cons, List.foldr_cons]
          refine max_eq_left (foldr_max_le _ _ ?_)
          intro x hx
          obtain ⟨e, he, rfl⟩ := List.mem_map.mp hx
          exact hall e he
        exact ⟨a, List.find?_cons_of_pos _ (by rw [hmax]; simp), sel_all_le t a hall, hpa⟩
      · push_neg at hall
        obtain ⟨f, hfind, hfold, hgt⟩ := ih a hall
        obtain ⟨e', he', hgt'⟩ := hall
        have ha2 : a.2 < maxSnd t := by
          refine lt_of_lt_of_le hgt' ?_
          unfold maxSnd
          exact le_foldr_max _ _ (List.mem_map_of_mem (fun e => e.2) he')
        have hmax : maxSnd (a :: t) = maxSnd t := by
          unfold maxSnd
          simp only [List.map_cons, List.foldr_cons]
          exact max_eq_right (le_of_lt ha2)
        refine ⟨f, ?_, hfold, lt_trans hpa hgt⟩
        rw [hmax, List.find?_cons_of_neg _ (by simp; omega)]
        exact hfind
    · simp only [List.foldl_cons, if_neg hpa]
      obtain ⟨e', he', hgt'⟩ := hex
      have he't : e' ∈ t := by
        rcases List.mem_cons.mp he' with h | h
        · exact absurd (h ▸ hgt') hpa
        · exact h
      obtain ⟨f, hfind, hfold, hgt⟩ := ih p ⟨e', he't, hgt'⟩
      have ha2 : a.2 < maxSnd t := by
        have h1 : e'.2 ≤ maxSnd t := by
          unfold maxSnd
          exact le_foldr_max _ _ (List.mem_map_of_mem (fun e => e.2) he't)
        omega
      have hmax : maxSnd (a :: t) = maxSnd t := by
        unfold maxSnd
        simp only [List.map_cons, List.foldr_cons]
        exact max_eq_right (le_of_lt ha2)
      refine ⟨f, ?_, hfold, hgt⟩
      rw [hmax, List.find?_cons_of_neg _ (by simp; omega)]
      exact hfind

theorem maxSnd_mapform (lv : List Nat) :
    maxSnd ((dedupFirst lv).map (fun k => (k, lv.count k))) = maxCount lv := by
  unfold maxSnd maxCount
  rw [List.map_map]
  refine le_antisymm ?_ ?_
  · refine foldr_max_le _ _ ?_
    intro a ha
    obtain ⟨j, hj, rfl⟩ := List.mem_map.mp ha
    exact le_foldr_max _ _
      (List.mem_map_of_mem (fun k => lv.count k) ((mem_dedupFirst lv j).mp hj))
  · refine foldr_max_le _ _ ?_
    intro a ha
    obtain ⟨j, hj, rfl⟩ := List.mem_map.mp ha
    exact le_foldr_max _ _
      (List.mem_map_of_mem _ ((mem_dedupFirst lv j).mpr hj))

theorem pickCutoff_mapform (lv : List Nat) :
    pickCutoff ((dedupFirst lv).map (fun k => (k, lv.count k))) = specCutoff lv := by
  by_cases hlv : lv = []
  · subst hlv; rfl
  · obtain ⟨k0, hk0⟩ : ∃ k0, k0 ∈ lv := by
      cases lv with
      | nil => exact absurd rfl hlv
      | cons a t => exact ⟨a, List.mem_cons_self a t⟩
    have hex : ∃ e ∈ (dedupFirst lv).map (fun k => (k, lv.count k)),
        ((0, 0) : Nat × Nat).2 < e.2 :=
      ⟨(k0, lv.count k0), List.mem_map_of_mem _ ((mem_dedupFirst lv k0).mpr hk0),
        List.count_pos_iff.mpr hk0⟩
    obtain ⟨e, hfind, hfold, _⟩ := sel_exists_gt _ (0, 0) hex
    unfold pickCutoff specCutoff
    rw [hfold]
    rw [List.find?_map] at hfind
    simp only [Function.comp_def] at hfind
    rw [maxSnd_mapform lv] at hfind
    cases hf : (dedupFirst lv).find? (fun k => lv.count k == maxCount lv) with
    | none => rw [hf] at hfind; simp at hfind
    | some kstar =>
      rw [hf] at hfind
      have he : (kstar, lv.count kstar) = e := by simpa using hfind
      rw [← he]

theorem countsLoop_eq (lines : List String) :
    ∀ m, countsLoop lines m = .ok ((headerLevels lines).foldl bumpCount m) := by
  induction lines with
  | nil => intro m; rfl
  | cons line rest ih =>
    intro m
    by_cases h : startsWithChar line '#' = true
    · obtain ⟨pos, hc, _⟩ := ccc_hash line h
      unfold countsLoop
      rw [if_pos h, hc]
      dsimp only
      rw [ih]
      simp [headerLevels, List.filterMap_cons, h]
    · unfold countsLoop
      rw [if_neg h, ih]
      simp [headerLevels, List.filterMap_cons, h]

/-- C8 (amended): when no cutoff is supplied, the computed cutoff is the
header level with the highest occurrence count, with ties broken in favor
of the level that OCCURS FIRST in the text (the counts dict preserves
first-insertion order and the selection loop keeps the first strict
maximum) — not the level whose maximum count is reached first in scan
order (see the counterexample).  In particular a text with five level-2
headers and one level-1 header yields cutoff 2. -/
theorem C8_amended_cutoff_tiebreak :
    (∀ s : String, get_header_level_cutoff (some s)
      = .ok (specCutoff (headerLevels (pythonLines s)))) ∧
    get_header_level_cutoff (some "# x\n## a\n## b\n## c\n## d\n## e") = .ok 2 := by
  refine ⟨?_, by decide⟩
  intro s
  have h1 := countsLoop_eq (pythonLines s) []
  unfold get_header_level_cutoff
  rw [show pythonLinesOpt (some s) = pythonLines s from rfl, h1]
  show Except.ok (pickCutoff ((headerLevels (pythonLines s)).foldl bumpCount [])) = _
  rw [buildCounts_eq, pickCutoff_mapform]

end PdfToMd
